import Mathlib

/-!
Verification of the packed SIMD matrix type `SimdMatrix<T, Rows, Cols>` from
`src/simd.cpp`.

The C++ class stores `num_batches = (Rows / batch_size) * Cols` vector batches
of lane width `batch_size` (written `W` below), in packed column-major order.
We embed the storage as a total function `data_ : Nat → Nat → T`, where
`data_ b lane` is lane `lane` of batch `b`; indices outside the real storage
(`b ≥ num_batches` or `lane ≥ W`) exist only by totality of the function and
are never constrained nor observed by in-bounds operations.

Arithmetic is embedded exactly (over an abstract scalar type, instantiated at
`ℤ` for the concrete scenarios, whose values are all exactly representable):
SIMD lane operations are element-wise, so a batch operation is modelled
pointwise on lanes.
-/

/-- `batches_per_col = Rows / batch_size` (simd.cpp line 48). -/
def batchesPerCol (Rows W : Nat) : Nat := Rows / W

/-- `num_batches = batches_per_col * Cols` (simd.cpp line 49). -/
def numBatches (Rows Cols W : Nat) : Nat := batchesPerCol Rows W * Cols

/-- The batch index computed by `operator()` (simd.cpp lines 79–80):
`idx = j * Rows + i`, `batch_idx = idx / batch_size`. -/
def batchIndex (Rows W i j : Nat) : Nat := (j * Rows + i) / W

/-- The in-batch lane offset computed by `operator()` (simd.cpp lines 79–81):
`idx = j * Rows + i`, `offset = idx % batch_size`. -/
def laneOffset (Rows W i j : Nat) : Nat := (j * Rows + i) % W

/-- `SimdMatrix<T, Rows, Cols>` with lane width `W`
(`std::array<batch_t, num_batches> data_;`, simd.cpp lines 44–51).
`data_ b lane` is lane `lane` of batch `b`. -/
structure SimdMatrix (T : Type) (Rows Cols W : Nat) where
  data_ : Nat → Nat → T

/-- Default constructor (simd.cpp lines 54–57): every batch is the
broadcast of `T(0)`. -/
def SimdMatrix.zeroDefault (T : Type) [Zero T] (Rows Cols W : Nat) :
    SimdMatrix T Rows Cols W :=
  ⟨fun _ _ => 0⟩

/-- Row-major buffer constructor (simd.cpp lines 60–68).  The C++ first builds
`col_data` with `col_data[j * Rows + i] = values[i * Cols + j]`, so position
`idx` of `col_data` holds `values[(idx % Rows) * Cols + idx / Rows]`; then
batch `b` is loaded from `&col_data[b * batch_size]`, so lane `lane` of batch
`b` is `col_data[b * W + lane]`. -/
def SimdMatrix.ofRowMajor (T : Type) (Rows Cols W : Nat) (values : Nat → T) :
    SimdMatrix T Rows Cols W :=
  ⟨fun b lane =>
    values (((b * W + lane) % Rows) * Cols + (b * W + lane) / Rows)⟩

/-- The batch-load step of the constructor taken on its own
(simd.cpp lines 66–67): importing a buffer that is already in the packed
column-major storage order, batch `b` is loaded from `&buffer[b * batch_size]`.
This is the column-major import matching `export_to_col_major`. -/
def SimdMatrix.loadColMajor (T : Type) (Rows Cols W : Nat) (values : Nat → T) :
    SimdMatrix T Rows Cols W :=
  ⟨fun b lane => values (b * W + lane)⟩

/-- Scalar element access `operator()(i, j)` (simd.cpp lines 77–85):
`idx = j * Rows + i`; unpack batch `idx / batch_size` and return lane
`idx % batch_size`. -/
def SimdMatrix.entry {T : Type} {Rows Cols W : Nat}
    (M : SimdMatrix T Rows Cols W) (i j : Nat) : T :=
  M.data_ (batchIndex Rows W i j) (laneOffset Rows W i j)

/-- `export_to_col_major` (simd.cpp lines 88–96): `out[b * batch_size + i]`
is lane `i` of batch `b`, i.e. position `n` of the output is lane `n % W` of
batch `n / W`. -/
def SimdMatrix.exportColMajor {T : Type} {Rows Cols W : Nat}
    (M : SimdMatrix T Rows Cols W) : Nat → T :=
  fun n => M.data_ (n / W) (n % W)

/-- `export_to_row_major` (simd.cpp lines 99–106): export column-major into a
scratch buffer, then `out[i * Cols + j] = col_data[j * Rows + i]`, i.e.
position `n = i * Cols + j` of the output is position
`(n % Cols) * Rows + n / Cols` of the column-major scratch buffer. -/
def SimdMatrix.exportRowMajor {T : Type} {Rows Cols W : Nat}
    (M : SimdMatrix T Rows Cols W) : Nat → T :=
  fun n => M.exportColMajor ((n % Cols) * Rows + n / Cols)

/-- `operator+` (simd.cpp lines 109–115): corresponding batches are added
pairwise; batch addition is lane-wise. -/
def SimdMatrix.add {T : Type} [Add T] {Rows Cols W : Nat}
    (A B : SimdMatrix T Rows Cols W) : SimdMatrix T Rows Cols W :=
  ⟨fun b lane => A.data_ b lane + B.data_ b lane⟩

/-- `operator*` (simd.cpp lines 118–133).  In the C++ loop nest
(`j` outer over `OtherCols`, `k` middle over `Cols`, `b` inner over
`batches_per_col`), the result batch at index `d = j * batches_per_col + b`
is zero-initialised and receives exactly one accumulation
`+= data_[k * batches_per_col + b] * broadcast(other(k, j))`
per reduction index `k`, in ascending `k` order.  With
`b = d % batches_per_col` and `j = d / batches_per_col`, the final value of
that batch is the fold below (lane-wise, since batch `+`, `*` and broadcast
are lane-wise).  Destination indices `d ≥ num_batches` do not exist in the
C++ storage; the model's values there are unobserved by in-bounds reads. -/
def SimdMatrix.mul {T : Type} [Zero T] [Add T] [Mul T] {Rows K C W : Nat}
    (A : SimdMatrix T Rows K W) (B : SimdMatrix T K C W) :
    SimdMatrix T Rows C W :=
  ⟨fun d lane =>
    (List.range K).foldl
      (fun acc k =>
        acc + A.data_ (k * batchesPerCol Rows W + d % batchesPerCol Rows W) lane
          * B.entry k (d / batchesPerCol Rows W))
      0⟩

-- ### Concrete data of the demonstration scenarios (spec §8).
-- All scenario values and every intermediate of the computation are small
-- integers, exactly representable in the C++ `float` type, so the exact
-- arithmetic of the scenario is modelled over `ℤ` (exact equality implies
-- equality within any floating-point epsilon).

/-- Row-major entries of the spec's matrix `A`. -/
def aList : List ℤ := [1, 2, 3, 4, 5, 6, 7, 8, 9, 10, 11, 12, 13, 14, 15, 16]

/-- Row-major entries of the spec's matrix `B = transpose(A)`. -/
def bList : List ℤ := [1, 5, 9, 13, 2, 6, 10, 14, 3, 7, 11, 15, 4, 8, 12, 16]

/-- Entries of the spec's column vector `v`. -/
def vList : List ℤ := [1, 1, 1, 1]

/-- The spec's `A` as a `SimdMatrix` (lane width 4, one batch per column). -/
def matA : SimdMatrix ℤ 4 4 4 :=
  SimdMatrix.ofRowMajor ℤ 4 4 4 (fun n => aList.getD n 0)

/-- The spec's `B` as a `SimdMatrix`. -/
def matB : SimdMatrix ℤ 4 4 4 :=
  SimdMatrix.ofRowMajor ℤ 4 4 4 (fun n => bList.getD n 0)

/-- The spec's `v` as a 4×1 `SimdMatrix`. -/
def matV : SimdMatrix ℤ 4 1 4 :=
  SimdMatrix.ofRowMajor ℤ 4 1 4 (fun n => vList.getD n 0)

/-- Reference triple-loop matrix product, following the spec's words
("the standard matrix product computed by reference triple-loop arithmetic"):
entry `(i, j)` is the sum over `k < K` of `A[i][k] * B[k][j]`. -/
def refTripleLoop (A B : Nat → Nat → ℤ) (K i j : Nat) : ℤ :=
  ((List.range K).map (fun k => A i k * B k j)).sum

/-- The spec's `A` as a plain row-major indexing function. -/
def aFn : Nat → Nat → ℤ := fun i k => aList.getD (i * 4 + k) 0

/-- The spec's `B` as a plain row-major indexing function. -/
def bFn : Nat → Nat → ℤ := fun k j => bList.getD (k * 4 + j) 0

-- ### Helper lemmas

/-- The row-major constructor followed by `operator()` recovers the supplied
scalar: reading element `(i, j)` of `ofRowMajor values` gives
`values (i * Cols + j)`. -/
theorem SimdMatrix.entry_ofRowMajor {T : Type} {Rows Cols W : Nat}
    (values : Nat → T) (i j : Nat) (hi : i < Rows) :
    (SimdMatrix.ofRowMajor T Rows Cols W values).entry i j
      = values (i * Cols + j) := by
  have hR : 0 < Rows := Nat.lt_of_le_of_lt (Nat.zero_le i) hi
  simp only [SimdMatrix.entry, SimdMatrix.ofRowMajor, batchIndex, laneOffset]
  rw [Nat.div_add_mod', Nat.mul_comm j Rows, Nat.mul_add_mod,
    Nat.mod_eq_of_lt hi, Nat.mul_add_div hR, Nat.div_eq_of_lt hi,
    Nat.add_zero]

/-- The batch index of an in-bounds element is strictly below `num_batches`
(assuming the static precondition `batch_size ∣ Rows` and a positive lane
width). -/
theorem batchIndex_lt_numBatches {Rows Cols W : Nat} (hW : 0 < W)
    (hdvd : W ∣ Rows) {i j : Nat} (hi : i < Rows) (hj : j < Cols) :
    batchIndex Rows W i j < numBatches Rows Cols W := by
  obtain ⟨m, hm⟩ := hdvd
  have hbpc : batchesPerCol Rows W = m := by
    rw [batchesPerCol, hm, Nat.mul_div_cancel_left _ hW]
  have hlt : j * Rows + i < Rows * Cols :=
    calc j * Rows + i < j * Rows + Rows := Nat.add_lt_add_left hi _
    _ = (j + 1) * Rows := (Nat.succ_mul j Rows).symm
    _ ≤ Cols * Rows := Nat.mul_le_mul_right Rows hj
    _ = Rows * Cols := Nat.mul_comm Cols Rows
  rw [batchIndex, numBatches, hbpc, Nat.div_lt_iff_lt_mul hW]
  calc j * Rows + i < Rows * Cols := hlt
  _ = m * Cols * W := by rw [hm]; ring

-- ### Claims

/-- C1: for the concrete inputs `A` (rows 1..16 row-major) and
`B = transpose(A)`, `multiply(A, B)` equals the standard matrix product
computed by a reference triple-loop, element-wise (exactly, in the exact
arithmetic model, hence within floating-point epsilon). -/
theorem mul_concrete_4x4_eq_refTripleLoop :
    ∀ i j : Fin 4, (matA.mul matB).entry i j = refTripleLoop aFn bFn 4 i j := by
  decide

/-- C2: for the same `A` and the column vector `v = [1,1,1,1]`,
`multiply(A, v)` is the column of row-sums of `A`, namely `[10,26,42,58]`. -/
theorem mul_concrete_4x1_eq_row_sums :
    ∀ i : Fin 4, (matA.mul matV).entry i 0 = [(10:ℤ), 26, 42, 58].getD i 0 := by
  decide

/-- C3: for every matrix constructed from a row-major buffer and every
in-bounds index pair `(i, j)`, `at(i, j)` returns exactly the buffer value at
row-major flat position `i * C + j`. -/
theorem entry_ofRowMajor_eq_buffer (T : Type) (Rows Cols W : Nat)
    (values : Nat → T) (i j : Nat) (hi : i < Rows) (hj : j < Cols) :
    (SimdMatrix.ofRowMajor T Rows Cols W values).entry i j
      = values (i * Cols + j) :=
  SimdMatrix.entry_ofRowMajor values i j hi

/-- Witness for C3 at `Rows = 2`, `Cols = 3`, `W = 2`, `(i, j) = (1, 1)`. -/
theorem entry_ofRowMajor_eq_buffer_witness :
    (1 < 2 ∧ 1 < 3) ∧
      (SimdMatrix.ofRowMajor ℤ 2 3 2 (fun n => (n : ℤ))).entry 1 1
        = ((1 * 3 + 1 : Nat) : ℤ) :=
  ⟨⟨by decide, by decide⟩,
    entry_ofRowMajor_eq_buffer ℤ 2 3 2 (fun n => (n : ℤ)) 1 1
      (by decide) (by decide)⟩

/-- C4: `add` is the element-wise sum: for in-bounds `(i, j)`,
`add(A, B).at(i, j) = A.at(i, j) + B.at(i, j)` under `T`'s own addition. -/
theorem add_entry_eq_entry_add {T : Type} [Add T] {Rows Cols W : Nat}
    (A B : SimdMatrix T Rows Cols W) (i j : Nat)
    (hi : i < Rows) (hj : j < Cols) :
    (A.add B).entry i j = A.entry i j + B.entry i j := rfl

/-- Witness for C4 at two concrete 2×2 integer matrices and `(i, j) = (1, 0)`. -/
theorem add_entry_eq_entry_add_witness :
    (1 < 2 ∧ 0 < 2) ∧
      ((SimdMatrix.ofRowMajor ℤ 2 2 2 (fun n => (n : ℤ))).add
          (SimdMatrix.ofRowMajor ℤ 2 2 2 (fun n => (n * n : ℤ)))).entry 1 0
        = (SimdMatrix.ofRowMajor ℤ 2 2 2 (fun n => (n : ℤ))).entry 1 0
          + (SimdMatrix.ofRowMajor ℤ 2 2 2 (fun n => (n * n : ℤ))).entry 1 0 :=
  ⟨⟨by decide, by decide⟩,
    add_entry_eq_entry_add (SimdMatrix.ofRowMajor ℤ 2 2 2 (fun n => (n : ℤ)))
      (SimdMatrix.ofRowMajor ℤ 2 2 2 (fun n => (n * n : ℤ))) 1 0
      (by decide) (by decide)⟩

/-- C5: re-importing the row-major export through the row-major constructor
reproduces the matrix element-wise. -/
theorem ofRowMajor_exportRowMajor_entry {T : Type} {Rows Cols W : Nat}
    (M : SimdMatrix T Rows Cols W) (i j : Nat)
    (hi : i < Rows) (hj : j < Cols) :
    (SimdMatrix.ofRowMajor T Rows Cols W M.exportRowMajor).entry i j
      = M.entry i j := by
  have hC : 0 < Cols := Nat.lt_of_le_of_lt (Nat.zero_le j) hj
  rw [SimdMatrix.entry_ofRowMajor _ i j hi]
  have h1 : (i * Cols + j) % Cols = j := by
    rw [Nat.mul_comm, Nat.mul_add_mod, Nat.mod_eq_of_lt hj]
  have h2 : (i * Cols + j) / Cols = i := by
    rw [Nat.mul_comm, Nat.mul_add_div hC, Nat.div_eq_of_lt hj, Nat.add_zero]
  simp only [SimdMatrix.exportRowMajor, SimdMatrix.exportColMajor, h1, h2]
  rfl

/-- Witness for C5 at a concrete 2×2 integer matrix and `(i, j) = (1, 0)`. -/
theorem ofRowMajor_exportRowMajor_entry_witness :
    (1 < 2 ∧ 0 < 2) ∧
      (SimdMatrix.ofRowMajor ℤ 2 2 2
          (SimdMatrix.ofRowMajor ℤ 2 2 2 (fun n => (n : ℤ))).exportRowMajor).entry 1 0
        = (SimdMatrix.ofRowMajor ℤ 2 2 2 (fun n => (n : ℤ))).entry 1 0 :=
  ⟨⟨by decide, by decide⟩,
    ofRowMajor_exportRowMajor_entry
      (SimdMatrix.ofRowMajor ℤ 2 2 2 (fun n => (n : ℤ))) 1 0
      (by decide) (by decide)⟩

/-- C6: re-importing the column-major export through the column-major load
(the batch-load step of the constructor, simd.cpp lines 66–67) reproduces the
matrix element-wise. -/
theorem loadColMajor_exportColMajor_entry {T : Type} {Rows Cols W : Nat}
    (M : SimdMatrix T Rows Cols W) (i j : Nat)
    (hi : i < Rows) (hj : j < Cols) :
    (SimdMatrix.loadColMajor T Rows Cols W M.exportColMajor).entry i j
      = M.entry i j := by
  simp only [SimdMatrix.loadColMajor, SimdMatrix.exportColMajor,
    SimdMatrix.entry, batchIndex, laneOffset, Nat.div_add_mod']

/-- Witness for C6 at a concrete 2×2 integer matrix and `(i, j) = (0, 1)`. -/
theorem loadColMajor_exportColMajor_entry_witness :
    (0 < 2 ∧ 1 < 2) ∧
      (SimdMatrix.loadColMajor ℤ 2 2 2
          (SimdMatrix.ofRowMajor ℤ 2 2 2 (fun n => (n : ℤ))).exportColMajor).entry 0 1
        = (SimdMatrix.ofRowMajor ℤ 2 2 2 (fun n => (n : ℤ))).entry 0 1 :=
  ⟨⟨by decide, by decide⟩,
    loadColMajor_exportColMajor_entry
      (SimdMatrix.ofRowMajor ℤ 2 2 2 (fun n => (n : ℤ))) 0 1
      (by decide) (by decide)⟩

/-- C7: the default-constructed matrix is all-zero, and adding it to any
matrix of the same shape returns that matrix, element-wise. -/
theorem zeroDefault_entry_and_add_identity {T : Type} [AddZeroClass T]
    {Rows Cols W : Nat} (M : SimdMatrix T Rows Cols W) (i j : Nat)
    (hi : i < Rows) (hj : j < Cols) :
    (SimdMatrix.zeroDefault T Rows Cols W).entry i j = 0 ∧
      (M.add (SimdMatrix.zeroDefault T Rows Cols W)).entry i j = M.entry i j := by
  refine ⟨rfl, ?_⟩
  simp only [SimdMatrix.add, SimdMatrix.zeroDefault, SimdMatrix.entry, add_zero]

/-- Witness for C7 at a concrete 2×2 integer matrix and `(i, j) = (1, 1)`. -/
theorem zeroDefault_entry_and_add_identity_witness :
    (1 < 2 ∧ 1 < 2) ∧
      ((SimdMatrix.zeroDefault ℤ 2 2 2).entry 1 1 = 0 ∧
        ((SimdMatrix.ofRowMajor ℤ 2 2 2 (fun n => (n : ℤ))).add
            (SimdMatrix.zeroDefault ℤ 2 2 2)).entry 1 1
          = (SimdMatrix.ofRowMajor ℤ 2 2 2 (fun n => (n : ℤ))).entry 1 1) :=
  ⟨⟨by decide, by decide⟩,
    zeroDefault_entry_and_add_identity
      (SimdMatrix.ofRowMajor ℤ 2 2 2 (fun n => (n : ℤ))) 1 1
      (by decide) (by decide)⟩

/-- Folding the multiplication accumulation over a list of reduction indices
whose broadcast scalars are all zero leaves the accumulator unchanged. -/
theorem foldl_accum_eq_of_zero {T : Type} [NonUnitalNonAssocSemiring T]
    (f g : Nat → T) :
    ∀ (l : List Nat) (c : T), (∀ k ∈ l, g k = 0) →
      l.foldl (fun acc k => acc + f k * g k) c = c
  | [], _, _ => rfl
  | a :: l, c, hg => by
    rw [List.foldl_cons, hg a (List.mem_cons_self a l), mul_zero, add_zero]
    exact foldl_accum_eq_of_zero f g l c fun k hk =>
      hg k (List.mem_cons_of_mem a hk)

/-- C8: multiplying any matrix `A : R × K` by a matrix whose in-bounds
entries are all zero yields the all-zero result of the output shape, for any
reduction dimension `K` including `K = 0`. -/
theorem mul_zero_matrix_entry {T : Type} [NonUnitalNonAssocSemiring T]
    {Rows K C W : Nat} (hW : 0 < W) (hdvd : W ∣ Rows)
    (A : SimdMatrix T Rows K W) (B : SimdMatrix T K C W)
    (hB : ∀ k j, k < K → j < C → B.entry k j = 0)
    (i j : Nat) (hi : i < Rows) (hj : j < C) :
    (A.mul B).entry i j = 0 := by
  have hR : 0 < Rows := Nat.lt_of_le_of_lt (Nat.zero_le i) hi
  obtain ⟨m, hm⟩ := hdvd
  have hmpos : 0 < m := by
    rcases Nat.eq_zero_or_pos m with h0 | h
    · rw [h0, Nat.mul_zero] at hm; omega
    · exact h
  have hbpc : batchesPerCol Rows W = m := by
    rw [batchesPerCol, hm, Nat.mul_div_cancel_left _ hW]
  have hjC : batchIndex Rows W i j / batchesPerCol Rows W < C := by
    rw [Nat.div_lt_iff_lt_mul (hbpc ▸ hmpos)]
    have hnb := batchIndex_lt_numBatches hW ⟨m, hm⟩ hi hj
    rw [numBatches] at hnb
    rw [Nat.mul_comm C (batchesPerCol Rows W)]
    exact hnb
  show (List.range K).foldl
      (fun acc k =>
        acc + A.data_
            (k * batchesPerCol Rows W
              + batchIndex Rows W i j % batchesPerCol Rows W)
            (laneOffset Rows W i j)
          * B.entry k (batchIndex Rows W i j / batchesPerCol Rows W))
      0 = 0
  exact foldl_accum_eq_of_zero
    (fun k => A.data_
      (k * batchesPerCol Rows W + batchIndex Rows W i j % batchesPerCol Rows W)
      (laneOffset Rows W i j))
    (fun k => B.entry k (batchIndex Rows W i j / batchesPerCol Rows W))
    (List.range K) 0
    (fun k hk => hB k _ (List.mem_range.mp hk) hjC)

/-- Witness for C8: a concrete 2×2 integer matrix times the all-zero default
matrix is zero at `(0, 1)`. -/
theorem mul_zero_matrix_entry_witness :
    (0 < 2 ∧ 2 ∣ 2 ∧ 0 < 2 ∧ 1 < 2) ∧
      ((SimdMatrix.ofRowMajor ℤ 2 2 2 (fun n => (n : ℤ))).mul
          (SimdMatrix.zeroDefault ℤ 2 2 2)).entry 0 1 = 0 :=
  ⟨⟨by decide, by decide, by decide, by decide⟩,
    mul_zero_matrix_entry (by decide) (by decide)
      (SimdMatrix.ofRowMajor ℤ 2 2 2 (fun n => (n : ℤ)))
      (SimdMatrix.zeroDefault ℤ 2 2 2)
      (fun _ _ _ _ => rfl) 0 1 (by decide) (by decide)⟩

/-- C10: for in-bounds `(i, j)` (given the static preconditions `0 < W` and
`W ∣ Rows`), the index arithmetic of `operator()` stays inside the storage:
`batch_idx = (j * Rows + i) / W` is strictly below `num_batches` and the
in-batch offset `(j * Rows + i) % W` is strictly below `W`. -/
theorem entry_index_arithmetic_in_bounds {Rows Cols W : Nat}
    (hW : 0 < W) (hdvd : W ∣ Rows) (i j : Nat) (hi : i < Rows) (hj : j < Cols) :
    batchIndex Rows W i j < numBatches Rows Cols W
      ∧ laneOffset Rows W i j < W :=
  ⟨batchIndex_lt_numBatches hW hdvd hi hj, Nat.mod_lt _ hW⟩

/-- Witness for C10 at `Rows = 4`, `Cols = 3`, `W = 2`, `(i, j) = (3, 2)`. -/
theorem entry_index_arithmetic_in_bounds_witness :
    (0 < 2 ∧ 2 ∣ 4 ∧ 3 < 4 ∧ 2 < 3) ∧
      (batchIndex 4 2 3 2 < numBatches 4 3 2 ∧ laneOffset 4 2 3 2 < 2) :=
  ⟨⟨by decide, by decide, by decide, by decide⟩,
    entry_index_arithmetic_in_bounds (by decide) (by decide) 3 2
      (by decide) (by decide)⟩
